import Mathlib

/-!
Verification of the CSRC downloader core (`csrc_downloader.py`).

The development shallowly embeds the crawler: pure string machinery models the
regular-expression searches and substitutions used by `generate_next_url` and
`_has_url_pagination_pattern`; HTML documents are modelled as lists of anchors
(an anchor carries its `href`, stripped text, class tokens and `onclick`
attribute, exactly the data the Python code reads); the HTTP session and the
filesystem are modelled as explicit oracles in an `Env` record, and the mutable
downloader state (the persisted DownloadedSet, the append-only record file, the
files written on disk, and a log of every request issued) as a `St` record that
every operation threads explicitly.  Python exceptions are modelled with
`Except`, with the essential fidelity that state mutations performed before an
exception persist (a raised download does not roll back the request log or a
partially written file).

External library functions of the Python standard library that the code calls
but does not define (`urllib.parse.urljoin`, `urlparse(u).path`) are abstract
function parameters carried by `Env`; every theorem quantifies over them.
-/

namespace CSRC

/-- ASCII lower-casing, as performed by `str.lower()` / `re.I` on the ASCII
characters that the crawler's patterns contain. -/
def asciiLower (c : Char) : Char :=
  if 65 ≤ c.toNat ∧ c.toNat ≤ 90 then Char.ofNat (c.toNat + 32) else c

/-- Lower-case a character list. -/
def lowerL (s : List Char) : List Char := s.map asciiLower

/-- ASCII decimal digit, the `\d` class of the crawler's patterns. -/
def isDigitC (c : Char) : Bool := decide (48 ≤ c.toNat ∧ c.toNat ≤ 57)

/-- The `[_\s]` class used in the pagination patterns: underscore or ASCII
whitespace. -/
def isSepC (c : Char) : Bool :=
  decide (c = '_' ∨ c = ' ' ∨ c = '\t' ∨ c = '\n' ∨ c = '\r' ∨ c = '\x0b' ∨ c = '\x0c')

/-- Case-insensitive literal-prefix test (a literal matched under `re.I`). -/
def ciPref : List Char → List Char → Bool
  | [], _ => true
  | _ :: _, [] => false
  | p :: ps, c :: cs => (asciiLower p == asciiLower c) && ciPref ps cs

/-- Substring containment, Python's `pat in s`. -/
def containsL (s pat : List Char) : Bool :=
  match s with
  | [] => pat.isPrefixOf ([] : List Char)
  | _ :: cs => pat.isPrefixOf s || containsL cs pat

/-- A matcher models one regular expression tested at one position: given the
suffix of the subject starting at that position it either fails or returns the
number of characters consumed together with a payload (the captured groups). -/
def Matcher (α : Type) : Type := List Char → Option (Nat × α)

/-- `re.search`: scan positions left to right, return the payload of the
leftmost position at which the matcher fires. -/
def scanHit {α : Type} (m : Matcher α) : List Char → Option α
  | [] => (m []).map Prod.snd
  | c :: cs =>
    match m (c :: cs) with
    | some (_, a) => some a
    | none => scanHit m cs

/-- Whether a pattern fires anywhere in the subject. -/
def anyFire {α : Type} (m : Matcher α) (s : List Char) : Bool := (scanHit m s).isSome

/-- `re.sub` / `str.replace`: replace every non-overlapping match, scanning
left to right, by `repl`. -/
def subAll {α : Type} (m : Matcher α) (repl : List Char) (s : List Char) : List Char :=
  match s with
  | [] => []
  | c :: cs =>
    match m (c :: cs) with
    | some (len, _) =>
      if len = 0 then c :: subAll m repl cs
      else repl ++ subAll m repl (cs.drop (len - 1))
    | none => c :: subAll m repl cs
termination_by s.length
decreasing_by
  all_goals simp [List.length_drop]
  all_goals omega

/-- Characters of a string literal. -/
def strL (s : String) : List Char := s.data

/-- Numeric value of a run of decimal digits, Python's `int(ds)`. -/
def digitsVal (ds : List Char) : Nat := ds.foldl (fun n c => n * 10 + (c.toNat - 48)) 0

/-- Decimal digits of a natural number, Python's `str(n)` in an f-string. -/
def natDigits (n : Nat) : List Char := Nat.toDigits 10 n

/-- Literal matcher (for `str.replace(lit, …)`). -/
def mLit (lit : List Char) : Matcher Unit := fun s =>
  if lit.isPrefixOf s then some (lit.length, ()) else none

/-- The regex `common_list_(\d+)\.shtml` (case-sensitive), payload
`(group 0, group 1)`: the whole matched text and the digit run. -/
def mCLN : Matcher (List Char × List Char) := fun s =>
  if (strL "common_list_").isPrefixOf s then
    let rest := s.drop 12
    let ds := rest.takeWhile isDigitC
    if ds.isEmpty then none
    else if (strL ".shtml").isPrefixOf (rest.drop ds.length) then
      some (12 + ds.length + 6, (s.take (12 + ds.length + 6), ds))
    else none
  else none

/-- One alternative of `(page[_\s]*|p[_\s]*)(\d+)` under `re.I`: a
case-insensitive literal, then separators, then a non-empty digit run.
Payload: `(group 1, group 2)` — the prefix with original casing including the
separators, and the digit run. -/
def mPrefDigits (pre : List Char) : Matcher (List Char × List Char) := fun s =>
  if ciPref pre s then
    let rest := s.drop pre.length
    let seps := rest.takeWhile isSepC
    let ds := (rest.drop seps.length).takeWhile isDigitC
    if ds.isEmpty then none
    else some (pre.length + seps.length + ds.length, (s.take (pre.length + seps.length), ds))
  else none

/-- The regex `(page[_\s]*|p[_\s]*)(\d+)` under `re.I`: the `page` alternative
is preferred at each position, then the bare `p` alternative. -/
def mPageP : Matcher (List Char × List Char) := fun s =>
  match mPrefDigits (strL "page") s with
  | some r => some r
  | none => mPrefDigits (strL "p") s

/-- The regex `index[_\s]*(\d+)` under `re.I`, payload the digit run. -/
def mIndexM : Matcher (List Char) := fun s =>
  (mPrefDigits (strL "index") s).map (fun r => (r.1, r.2.2))

/-- The substitution pattern `re.escape(prefix) + "\d+"` under `re.I`:
a case-insensitive literal followed by a non-empty digit run. -/
def mCIPD (pre : List Char) : Matcher Unit := fun s =>
  if ciPref pre s then
    let ds := (s.drop pre.length).takeWhile isDigitC
    if ds.isEmpty then none else some (pre.length + ds.length, ())
  else none

/-- The substitution pattern `index[_\s]*\d+` under `re.I`. -/
def mIndexSub : Matcher Unit := fun s =>
  (mPrefDigits (strL "index") s).map (fun r => (r.1, ()))

/-- The search pattern `common_list(_\d+)?\.shtml` under `re.I` (used only by
`_has_url_pagination_pattern`): the optional group is tried first, as the
regex engine does. -/
def mCLpat : Matcher Unit := fun s =>
  if ciPref (strL "common_list") s then
    let rest := s.drop 11
    let withGroup :=
      match rest with
      | '_' :: r2 =>
        let ds := r2.takeWhile isDigitC
        if ds.isEmpty then none
        else if ciPref (strL ".shtml") (r2.drop ds.length) then
          some (11 + 1 + ds.length + 6, ())
        else none
      | _ => none
    match withGroup with
    | some r => some r
    | none => if ciPref (strL ".shtml") rest then some (11 + 6, ()) else none
  else none

/-- `CSRCDownloader.generate_next_url`, over character lists.  The four
pattern rules are tried in source order; each substitution mirrors the
Python code exactly: rule 1 is `str.replace` of the literal
`common_list.shtml` (all occurrences), rule 2 is `str.replace` of the whole
matched text `m.group(0)`, rules 3 and 4 are `re.sub` under `re.I` of the
matched prefix (resp. `index[_\s]*`) followed by a digit run. -/
def genNextL (u : List Char) : Option (List Char) :=
  if (strL "common_list.shtml").isSuffixOf u then
    some (subAll (mLit (strL "common_list.shtml")) (strL "common_list_2.shtml") u)
  else
    match scanHit mCLN u with
    | some (matched, ds) =>
      some (subAll (mLit matched)
        (strL "common_list_" ++ natDigits (digitsVal ds + 1) ++ strL ".shtml") u)
    | none =>
      match scanHit mPageP u with
      | some (pre, ds) =>
        some (subAll (mCIPD pre) (pre ++ natDigits (digitsVal ds + 1)) u)
      | none =>
        match scanHit mIndexM u with
        | some ds =>
          some (subAll mIndexSub (strL "index_" ++ natDigits (digitsVal ds + 1)) u)
        | none => none

/-- `CSRCDownloader.generate_next_url`. -/
def generate_next_url (u : String) : Option String :=
  (genNextL u.data).map (fun l => ⟨l⟩)

/-- `CSRCDownloader._has_url_pagination_pattern`: true when any of the four
recognized pagination patterns occurs in the URL (all searched under `re.I`;
the separate `page` and `p` patterns of the source are together exactly
`mPageP`). -/
def has_url_pagination_pattern (url : String) : Bool :=
  anyFire mCLpat url.data || anyFire mPageP url.data || anyFire mIndexM url.data

/-- Python `suffix in s` on strings. -/
def strContains (s pat : String) : Bool := containsL s.data pat.data

/-- Python `s.endswith(suffix)`. -/
def strEnds (s suff : String) : Bool := suff.data.isSuffixOf s.data

/-- An `<a href=…>` element as the crawler reads it: BeautifulSoup's
`find_all("a", href=True)` guarantees the attribute is present (possibly
empty); `text` is `get_text(strip=True)`; `classes` the class token list
(empty when absent); `onclick` the inline handler (empty when absent). -/
structure Anchor where
  href : String
  text : String
  classes : List String
  onclick : String
  deriving DecidableEq, Repr

/-- A parsed page: all its anchors, plus the anchors that sit inside a
pagination-styled container (an element whose class or id matches `page` /
`pagination`), which is what `find_all_pagination_links` scans first. -/
structure Doc where
  anchors : List Anchor
  containerAnchors : List Anchor
  deriving DecidableEq, Repr

/-- Errors raised inside `download`. -/
inductive DlErr
  | transport
  | http (code : Nat)
  | stream
  deriving DecidableEq, Repr

/-- A streamed `session.get` response: final status, the chunks successfully
produced by `iter_content`, and whether the stream raises after producing
them (a mid-transfer failure). -/
structure FileResp where
  status : Nat
  chunks : List (List Nat)
  streamErr : Bool
  deriving DecidableEq, Repr

/-- The pagination mode detected for a run (`"button"` / `"url"` in the
source; Python `None` is modelled by `Option`). -/
inductive PagMode
  | button
  | url
  deriving DecidableEq, Repr

/-- The crawler's environment: the two URL helpers of `urllib.parse` that the
source calls but does not define (abstract in every theorem), and the network
oracles.  `pages url = none` models `fetch` raising (transport error or
non-2xx); `files url = none` models the streamed GET raising at request time;
`headReq` / `getReq` return the status of the probe requests of `url_exists`,
`none` modelling a raised exception. -/
structure Env where
  join : String → String → String
  urlpath : String → String
  pages : String → Option Doc
  files : String → Option FileResp
  headReq : String → Option Nat
  getReq : String → Option Nat

/-- Downloader state: `downloaded` is the in-memory DownloadedSet,
`downloadedLog` the durable append-only `downloaded_files.txt`, `fs` the
files on disk under the download directory, and `requests` a log of every
HTTP request issued (page fetches and file transfers), used to state
which URLs were and were not fetched. -/
structure St where
  downloaded : List String
  downloadedLog : List String
  fs : List (String × List Nat)
  requests : List String
  deriving DecidableEq, Repr

/-- Overwrite (or create) a file in the modelled download directory. -/
def setFile (fs : List (String × List Nat)) (name : String) (content : List Nat) :
    List (String × List Nat) :=
  (name, content) :: fs.filter (fun p => p.1 != name)

/-- Read a file of the modelled download directory. -/
def fileContent (fs : List (String × List Nat)) (name : String) : Option (List Nat) :=
  (fs.find? (fun p => p.1 == name)).map Prod.snd

/-- `valid_names` of `CSRCDownloader.download`, verbatim: note the source
tests `name.endswith(ext)` for `ext` in `['csv', 'xls', 'xlsx']` — plain
suffixes without a leading dot. -/
def valid_names (name : String) : Bool :=
  ["csv", "xls", "xlsx"].any (fun ext => strEnds name ext)

/-- `CSRCDownloader.download`.  Returns the raised exception (if any) and the
state as mutated up to the raise: the request log and a partially written
file survive a failure, while `downloaded` / `downloadedLog` are touched only
after the whole stream is consumed. -/
def download (env : Env) (st : St) (url name : String) : Except DlErr Unit × St :=
  if st.downloaded.contains url && valid_names name then (Except.ok (), st)
  else
    let st1 : St := { st with requests := st.requests ++ [url] }
    match env.files url with
    | none => (Except.error DlErr.transport, st1)
    | some r =>
      if 400 ≤ r.status then (Except.error (DlErr.http r.status), st1)
      else
        let st2 : St := { st1 with fs := setFile st1.fs name r.chunks.flatten }
        if r.streamErr then (Except.error DlErr.stream, st2)
        else
          (Except.ok (),
            { st2 with
              downloaded := st2.downloaded ++ [url]
              downloadedLog := st2.downloadedLog ++ [url] })

/-- `CSRCDownloader.fetch`: issues the request (logged), then either returns
the parsed document or raises. -/
def fetchDoc (env : Env) (st : St) (url : String) : Except Unit Doc × St :=
  let st1 : St := { st with requests := st.requests ++ [url] }
  match env.pages url with
  | none => (Except.error (), st1)
  | some d => (Except.ok d, st1)

/-- `CSRCDownloader.url_exists`: HEAD, falling back to a streamed GET when
HEAD raises; any raise of the fallback collapses to `false`.  Total by
construction — the probe never raises. -/
def url_exists (env : Env) (url : String) : Bool :=
  match env.headReq url with
  | some s => s == 200
  | none =>
    match env.getReq url with
    | some s => s == 200
    | none => false

/-- The file-link test of `extract_links`: `re.search(r"\.(csv|xls|xlsx)$",
href, re.I)` — the href ends, case-insensitively, in one of the three
data-file extensions. -/
def isFileHref (href : String) : Bool :=
  [".csv", ".xls", ".xlsx"].any (fun e => (strL e).isSuffixOf (lowerL href.data))

/-- The content-link test of `extract_links`: the href contains
`common_detail` or ends in `.shtml`. -/
def isContentHref (href : String) : Bool :=
  strContains href "common_detail" || strEnds href ".shtml"

/-- The characters `re.sub(r"[\\/:*?\"<>|]", "_", …)` replaces. -/
def illegalChars : List Char := ['\\', '/', ':', '*', '?', '\"', '<', '>', '|']

/-- Replace each filesystem-illegal character by `_`. -/
def sanitizeName (s : String) : String :=
  ⟨s.data.map (fun c => if illegalChars.contains c then '_' else c)⟩

/-- Python `s.split(sep)` for a one-character separator, over character
lists. -/
def splitOnChar (sep : Char) : List Char → List (List Char)
  | [] => [[]]
  | c :: cs =>
    let r := splitOnChar sep cs
    if c = sep then [] :: r
    else
      match r with
      | [] => [[c]]
      | h :: t => (c :: h) :: t

/-- `full.split("/")[-1]`: the trailing path segment of the resolved URL. -/
def lastSeg (s : String) : String := ⟨(splitOnChar '/' s.data).getLastD []⟩

/-- The suggested file name of a file link: the anchor text, falling back to
the trailing segment of the resolved URL when the text is empty, then
sanitized (`re.sub` is applied to the result of `text or full.split("/")[-1]`). -/
def mkName (join : String → String → String) (pageUrl : String) (a : Anchor) : String :=
  sanitizeName (if a.text = "" then lastSeg (join pageUrl a.href) else a.text)

/-- The anchor loop of `extract_links`, in document order. -/
def extractGo (join : String → String → String) (pageUrl : String) :
    List Anchor → List (String × String) × List String
  | [] => ([], [])
  | a :: rest =>
    let full := join pageUrl a.href
    let p := extractGo join pageUrl rest
    if isFileHref a.href then ((full, mkName join pageUrl a) :: p.1, p.2)
    else if isContentHref a.href then (p.1, full :: p.2)
    else p

/-- `CSRCDownloader.extract_links`.  The source's final `list(set(contents))`
deduplicates the content links with unspecified (hash) order; it is modelled
by `List.dedup`, which preserves membership exactly. -/
def extract_links (join : String → String → String) (pageUrl : String)
    (anchors : List Anchor) : List (String × String) × List String :=
  let p := extractGo join pageUrl anchors
  (p.1, p.2.dedup)

/-- The `next_texts` vocabulary of the source. -/
def next_texts : List String := ["下一页", "下页", "next", "Next", ">", "»"]

/-- The `last_page_texts` vocabulary of the source. -/
def last_page_texts : List String := ["最后一页", "末页", "last", "Last"]

/-- `any(v in text for v in vocab)`: substring containment against a
vocabulary. -/
def textMatches (vocab : List String) (t : String) : Bool :=
  vocab.any (fun v => containsL t.data v.data)

/-- `a.get("class") and any("disabled" in str(c).lower() for c in …)`:
some class token contains `disabled` case-insensitively (an absent class
attribute is the empty token list, on which `any` is false, matching the
Python truthiness short-circuit). -/
def classDisabled (a : Anchor) : Bool :=
  a.classes.any (fun c => containsL (lowerL c.data) (strL "disabled"))

/-- `"disabled" in str(a.get("onclick", "")).lower()`. -/
def onclickDisabled (a : Anchor) : Bool :=
  containsL (lowerL a.onclick.data) (strL "disabled")

/-- An anchor that counts as an enabled next-page control: its text contains
a next-vocabulary string and it is not flagged disabled. -/
def enabledNext (a : Anchor) : Bool :=
  textMatches next_texts a.text && !classDisabled a && !onclickDisabled a

/-- `CSRCDownloader.find_all_pagination_links`: anchors of pagination-styled
containers (skipping empty hrefs) plus purely-numeric-text anchors whose href
matches a pagination pattern, resolved and deduplicated (membership is what
the callers use; the Python `list(set(…))` order is unspecified). -/
def find_all_pagination_links (join : String → String → String) (doc : Doc)
    (current : String) : List String :=
  ((doc.containerAnchors.filter (fun a => a.href != "")).map (fun a => join current a.href) ++
    (doc.anchors.filter (fun a =>
      a.text != "" && a.text.data.all isDigitC && has_url_pagination_pattern a.href)).map
      (fun a => join current a.href)).dedup

/-- `CSRCDownloader.detect_pagination_mode`: priority 1 an enabled next
button, priority 2 a pagination-shaped current URL whose synthesized
successor passes the existence probe, priority 3 pagination links sampled
from the page (first five) with a pagination-shaped target. -/
def detect_pagination_mode (env : Env) (doc : Doc) (current : String) : Option PagMode :=
  if doc.anchors.any enabledNext then some PagMode.button
  else if has_url_pagination_pattern current &&
      (match generate_next_url current with
       | some nxt => url_exists env nxt
       | none => false) then some PagMode.url
  else if ((find_all_pagination_links env.join doc current).take 5).any
      has_url_pagination_pattern then some PagMode.url
  else none

/-- The anchor loop of `find_next_button`: the first enabled next-page anchor
with a non-empty href wins (a matching anchor with an empty href is passed
over, as the source's `if href:` guard does). -/
def findNextGo (join : String → String → String) (current : String) :
    List Anchor → Option String
  | [] => none
  | a :: rest =>
    if enabledNext a && a.href != "" then some (join current a.href)
    else findNextGo join current rest

/-- `CSRCDownloader.find_next_button`. -/
def find_next_button (env : Env) (doc : Doc) (current : String) : Option String :=
  findNextGo env.join current doc.anchors

/-- One anchor of the last-page loop of `is_last_page` that proves the page
terminal: its text contains a last-page vocabulary string, it has a target,
and the resolved target equals the current URL or matches it after stripping
query and fragment (`_urls_match` compares `urlparse(u).path`). -/
def lastPageTerminal (env : Env) (current : String) (a : Anchor) : Bool :=
  textMatches last_page_texts a.text && a.href != "" &&
    (env.join current a.href == current ||
      env.urlpath (env.join current a.href) == env.urlpath current)

/-- `CSRCDownloader.is_last_page`.  Button mode: the last-page loop may
return `True` even when an enabled next anchor exists, otherwise the result
is `not has_next`; url mode: a synthesized successor that fails the probe,
or no successor at all; any other mode: terminal. -/
def is_last_page (env : Env) (doc : Doc) (current : String) (mode : Option PagMode) : Bool :=
  match mode with
  | some PagMode.button =>
    if doc.anchors.any (lastPageTerminal env current) then true
    else !(doc.anchors.any enabledNext)
  | some PagMode.url =>
    (match generate_next_url current with
     | some nxt => !url_exists env nxt
     | none => true)
  | none => true

/-- `CSRCDownloader.smart_next`. -/
def smart_next (env : Env) (doc : Doc) (current : String) (mode : PagMode) : Option String :=
  match mode with
  | PagMode.button => find_next_button env doc current
  | PagMode.url =>
    match generate_next_url current with
    | some nxt => if url_exists env nxt then some nxt else none
    | none => none

/-- The listing-page file loop of `run` (lines 318–320): each file link is
downloaded in turn with no per-link handler, so the first raised download
propagates, leaving the remaining links unprocessed.  State mutations made
before the raise persist. -/
def processFiles (env : Env) : St → List (String × String) → Except DlErr Unit × St
  | st, [] => (Except.ok (), st)
  | st, (u, n) :: rest =>
    match download env st u n with
    | (Except.ok _, st1) => processFiles env st1 rest
    | (Except.error e, st1) => (Except.error e, st1)

/-- The content-page loop of `run` (lines 322–331): each content page is
fetched and its file links downloaded under a per-content-page `try`, so a
failure anywhere inside one content page is swallowed and the loop continues
with the next content page. -/
def processContents (env : Env) : St → List String → St
  | st, [] => st
  | st, c :: rest =>
    let st1 :=
      match fetchDoc env st c with
      | (Except.error _, s1) => s1
      | (Except.ok d, s1) =>
        let pair := extract_links env.join c d.anchors
        (processFiles env s1 pair.1).2
    processContents env st1 rest

/-- The `while current:` loop of `CSRCDownloader.run`.  `fuel` bounds the
number of iterations the embedding unfolds (the Python loop has no intrinsic
bound); every run that terminates within `fuel` iterations is represented
exactly.  The outer `try` covers the fetch, the listing-file loop and the
pagination steps; on a raise, url mode attempts a synthesized successor not
yet visited, any other mode ends the run. -/
def runLoop (env : Env) (maxPages : Option Nat) :
    Nat → String → List String → Nat → Option PagMode → St → St
  | 0, _, _, _, _, st => st
  | Nat.succ fuel, current, visited, page, mode, st =>
    if current = "" then st
    else if visited.contains current then st
    else if (match maxPages with | some mp => mp != 0 && decide (mp < page) | none => false) then st
    else
      let visited1 := current :: visited
      match fetchDoc env st current with
      | (Except.error _, st1) =>
        (match mode with
         | some PagMode.url =>
           (match generate_next_url current with
            | some nxt =>
              if nxt != "" && !(visited1.contains nxt) then
                runLoop env maxPages fuel nxt visited1 (page + 1) mode st1
              else st1
            | none => st1)
         | _ => st1)
      | (Except.ok doc, st1) =>
        let mode1 := match mode with
          | none => detect_pagination_mode env doc current
          | m => m
        let pair := extract_links env.join current doc.anchors
        match processFiles env st1 pair.1 with
        | (Except.error _, st2) =>
          (match mode1 with
           | some PagMode.url =>
             (match generate_next_url current with
              | some nxt =>
                if nxt != "" && !(visited1.contains nxt) then
                  runLoop env maxPages fuel nxt visited1 (page + 1) mode1 st2
                else st2
              | none => st2)
           | _ => st2)
        | (Except.ok _, st2) =>
          let st3 := processContents env st2 pair.2
          if mode1.isSome && is_last_page env doc current mode1 then st3
          else
            match mode1 with
            | none => st3
            | some m =>
              match smart_next env doc current m with
              | none => st3
              | some nxt => runLoop env maxPages fuel nxt visited1 (page + 1) (some m) st3

/-- `CSRCDownloader.run`: start from the base URL with an empty visited set,
page counter 1 and the pagination mode not yet detected. -/
def run (env : Env) (base : String) (maxPages : Option Nat) (fuel : Nat) (st : St) : St :=
  runLoop env maxPages fuel base [] 1 none st

/-! ### Concrete fixtures for witnesses and counterexamples -/

/-- The empty downloader state: fresh DownloadedSet, empty record file, empty
download directory, no requests issued yet. -/
def st0 : St := ⟨[], [], [], []⟩

/-- An environment in which every request fails; `join` returns the href
unchanged and `urlpath` is constant. -/
def fixEnv0 : Env where
  join := fun _ h => h
  urlpath := fun _ => ""
  pages := fun _ => none
  files := fun _ => none
  headReq := fun _ => none
  getReq := fun _ => none

/-- A listing page with two file links (partial-failure scenario). -/
def docC1 : Doc := ⟨[⟨"f1.csv", "A", [], ""⟩, ⟨"f2.csv", "B", [], ""⟩], []⟩

/-- Environment for the partial-failure scenario: the listing page parses,
every file transfer raises a transport error. -/
def envC1 : Env where
  join := fun _ h => String.append "http://b/" h
  urlpath := fun _ => ""
  pages := fun u => if u = "http://b/list.html" then some docC1 else none
  files := fun _ => none
  headReq := fun _ => none
  getReq := fun _ => none

/-- A listing page with a single file link whose href ends in upper-case
`.CSV` and whose anchor text is empty (so the suggested name is the trailing
segment `d.CSV`). -/
def docC2 : Doc := ⟨[⟨"d.CSV", "", [], ""⟩], []⟩

/-- Environment for the idempotence scenario: the listing page parses and the
file transfer succeeds. -/
def envC2 : Env where
  join := fun _ h => String.append "http://a/" h
  urlpath := fun _ => ""
  pages := fun u => if u = "http://a/list.html" then some docC2 else none
  files := fun u => if u = "http://a/d.CSV" then some ⟨200, [[1, 2]], false⟩ else none
  headReq := fun _ => none
  getReq := fun _ => none

/-- A state whose DownloadedSet and record already hold the URL `u`. -/
def stC3 : St := ⟨["u"], ["u"], [], []⟩

/-- Environment for the mid-stream-failure scenario: the transfer of `u8`
returns status 200 and two chunks, then raises during streaming. -/
def envC8 : Env where
  join := fun _ h => h
  urlpath := fun _ => ""
  pages := fun _ => none
  files := fun u => if u = "u8" then some ⟨200, [[1], [2]], true⟩ else none
  headReq := fun _ => none
  getReq := fun _ => none

/-- A page with an enabled next-page button (used together with a current URL
that also matches the `common_list_N.shtml` pagination shape). -/
def docBtn : Doc := ⟨[⟨"/p2", "下一页", [], ""⟩], []⟩

/-- A page whose anchors contain the vocabulary strings strictly inside longer
phrases: `next` inside `see more next items`, `last` inside `go to last page`. -/
def docSub : Doc :=
  ⟨[⟨"/more", "see more next items", [], ""⟩, ⟨"/self", "go to last page", [], ""⟩], []⟩

/-! ### String-machinery lemmas -/

lemma isPrefixOf_append (l r : List Char) : l.isPrefixOf (l ++ r) = true := by
  induction l with
  | nil => simp [List.isPrefixOf]
  | cons c cs ih => simp [List.isPrefixOf, ih]

lemma isSuffixOf_append (l p : List Char) : l.isSuffixOf (p ++ l) = true := by
  simp only [List.isSuffixOf, List.reverse_append]
  exact isPrefixOf_append _ _

lemma mLit_nil (lit : List Char) (h : lit ≠ []) : mLit lit [] = none := by
  cases lit with
  | nil => exact absurd rfl h
  | cons c cs => rfl

lemma takeWhile_app (P : Char → Bool) (l r : List Char)
    (hl : ∀ c ∈ l, P c = true) (hr : ∀ c cs, r = c :: cs → P c = false) :
    (l ++ r).takeWhile P = l := by
  induction l with
  | nil =>
    cases r with
    | nil => rfl
    | cons c cs => simp [List.takeWhile_cons, hr c cs rfl]
  | cons a l ih =>
    have ha := hl a (by simp)
    simp only [List.cons_append, List.takeWhile_cons, ha, if_true]
    rw [ih (fun c hc => hl c (by simp [hc]))]

lemma ciPref_append (pat pre r : List Char) (h : lowerL pre = lowerL pat) :
    ciPref pat (pre ++ r) = true := by
  induction pat generalizing pre with
  | nil => rfl
  | cons a pats ih =>
    cases pre with
    | nil => simp [lowerL] at h
    | cons b pres =>
      simp only [lowerL, List.map_cons, List.cons.injEq] at h
      simp only [List.cons_append, ciPref, h.1, beq_self_eq_true, Bool.true_and]
      exact ih pres h.2

lemma lowerL_length (s : List Char) : (lowerL s).length = s.length := by
  simp [lowerL]

lemma scanHit_first {α : Type} (m : Matcher α) (s : List Char) (k len : Nat) (a : α)
    (h0 : ∀ i, i < k → m (s.drop i) = none)
    (hk : m (s.drop k) = some (len, a)) : scanHit m s = some a := by
  induction s generalizing k with
  | nil =>
    cases k with
    | zero => simp at hk; simp [scanHit, hk]
    | succ j =>
      have h := h0 0 (Nat.succ_pos j)
      simp at h hk
      rw [h] at hk
      cases hk
  | cons c cs ih =>
    cases k with
    | zero =>
      simp at hk
      simp [scanHit, hk]
    | succ j =>
      have h := h0 0 (Nat.succ_pos j)
      simp at h
      simp only [scanHit, h]
      exact ih j
        (fun i hi => by simpa [List.drop_succ_cons] using h0 (i + 1) (Nat.succ_lt_succ hi))
        (by simpa [List.drop_succ_cons] using hk)

lemma subAll_id {α : Type} (m : Matcher α) (repl : List Char) (s : List Char)
    (h : ∀ i, m (s.drop i) = none) : subAll m repl s = s := by
  induction s with
  | nil => simp [subAll]
  | cons c cs ih =>
    have h0 := h 0
    simp at h0
    rw [subAll]
    simp only [h0]
    rw [ih (fun i => by simpa [List.drop_succ_cons] using h (i + 1))]

lemma matcher_none_of_ge {α : Type} (m : Matcher α) (s : List Char) (hm : m [] = none)
    (i : Nat) (hi : s.length ≤ i) : m (s.drop i) = none := by
  rw [List.drop_eq_nil_of_le hi]
  exact hm

lemma allNone_of_bounded {α : Type} (m : Matcher α) (s : List Char) (k : Nat) (hm : m [] = none)
    (hb : ∀ i, i < s.length → i ≠ k → m (s.drop i) = none) :
    ∀ i, i ≠ k → m (s.drop i) = none := by
  intro i hik
  by_cases hlt : i < s.length
  · exact hb i hlt hik
  · exact matcher_none_of_ge m s hm i (by omega)

lemma subAll_single {α : Type} (m : Matcher α) (repl s : List Char) (k len : Nat) (a : α)
    (hm : m [] = none) (hlen : 1 ≤ len)
    (hk : m (s.drop k) = some (len, a))
    (hother : ∀ i, i ≠ k → m (s.drop i) = none) :
    subAll m repl s = s.take k ++ repl ++ s.drop (k + len) := by
  induction s generalizing k with
  | nil =>
    simp at hk
    rw [hm] at hk
    cases hk
  | cons c cs ih =>
    cases k with
    | zero =>
      simp only [List.drop_zero] at hk
      have hlen0 : ¬ len = 0 := by omega
      rw [subAll]
      simp only [hk, hlen0, if_false]
      have hid : subAll m repl (cs.drop (len - 1)) = cs.drop (len - 1) := by
        apply subAll_id
        intro i
        have hdd : (cs.drop (len - 1)).drop i = (c :: cs).drop (len + i) := by
          cases len with
          | zero => omega
          | succ l =>
            rw [List.drop_drop]
            have h1 : l + 1 - 1 + i = l + i := by omega
            have h2 : l + 1 + i = (l + i) + 1 := by omega
            rw [h1, h2, List.drop_succ_cons]
        rw [hdd]
        exact hother (len + i) (by omega)
      rw [hid]
      cases len with
      | zero => omega
      | succ l => simp [List.drop_succ_cons]
    | succ j =>
      have h0 := hother 0 (by omega)
      simp only [List.drop_zero] at h0
      rw [subAll]
      simp only [h0]
      rw [ih j (by simpa [List.drop_succ_cons] using hk)
        (fun i hij => by simpa [List.drop_succ_cons] using hother (i + 1) (by omega))]
      have hdt : (c :: cs).drop (j + 1 + len) = cs.drop (j + len) := by
        have : j + 1 + len = (j + len) + 1 := by omega
        rw [this, List.drop_succ_cons]
      rw [List.take_succ_cons, hdt]
      simp

lemma isPrefixOf_self (l : List Char) : l.isPrefixOf l = true := by
  simp

/-! ### `generate_next_url`: one lemma per successor-synthesis rule -/

lemma genNext_rule1 (p : List Char)
    (huniq : ∀ i, i < (p ++ strL "common_list.shtml").length → i ≠ p.length →
      mLit (strL "common_list.shtml") ((p ++ strL "common_list.shtml").drop i) = none) :
    genNextL (p ++ strL "common_list.shtml") = some (p ++ strL "common_list_2.shtml") := by
  have hnil : mLit (strL "common_list.shtml") [] = none := mLit_nil _ (by decide)
  have hfire : mLit (strL "common_list.shtml") ((p ++ strL "common_list.shtml").drop p.length) =
      some ((strL "common_list.shtml").length, ()) := by
    rw [List.drop_left]
    simp [mLit, isPrefixOf_self]
  have hothers := allNone_of_bounded _ _ p.length hnil huniq
  have hsub := subAll_single (mLit (strL "common_list.shtml")) (strL "common_list_2.shtml")
    (p ++ strL "common_list.shtml") p.length ((strL "common_list.shtml").length) ()
    hnil (by decide) hfire hothers
  have htake : (p ++ strL "common_list.shtml").take p.length = p := List.take_left p _
  have hdrop : (p ++ strL "common_list.shtml").drop
      (p.length + (strL "common_list.shtml").length) = [] := by
    apply List.drop_eq_nil_of_le
    simp
  have hsuf := isSuffixOf_append (strL "common_list.shtml") p
  rw [genNextL, if_pos hsuf, hsub, htake, hdrop]
  simp

lemma genNext_rule2 (p ds q : List Char)
    (hne : ds ≠ []) (hdig : ∀ c ∈ ds, isDigitC c = true)
    (hend : (strL "common_list.shtml").isSuffixOf
      (p ++ strL "common_list_" ++ ds ++ strL ".shtml" ++ q) = false)
    (hum : ∀ i, i < (p ++ strL "common_list_" ++ ds ++ strL ".shtml" ++ q).length →
      i ≠ p.length →
      mCLN ((p ++ strL "common_list_" ++ ds ++ strL ".shtml" ++ q).drop i) = none)
    (hul : ∀ i, i < (p ++ strL "common_list_" ++ ds ++ strL ".shtml" ++ q).length →
      i ≠ p.length →
      mLit (strL "common_list_" ++ ds ++ strL ".shtml")
        ((p ++ strL "common_list_" ++ ds ++ strL ".shtml" ++ q).drop i) = none) :
    genNextL (p ++ strL "common_list_" ++ ds ++ strL ".shtml" ++ q) =
      some (p ++ strL "common_list_" ++ natDigits (digitsVal ds + 1) ++ strL ".shtml" ++ q) := by
  have hMlen : (strL "common_list_" ++ ds ++ strL ".shtml").length = 12 + ds.length + 6 := by
    have c1 : (strL "common_list_").length = 12 := rfl
    have c2 : (strL ".shtml").length = 6 := rfl
    simp [List.length_append, c1, c2]
    omega
  have hMne : strL "common_list_" ++ ds ++ strL ".shtml" ≠ [] := by
    intro h
    have := congrArg List.length h
    rw [hMlen] at this
    simp at this
  have hu : p ++ strL "common_list_" ++ ds ++ strL ".shtml" ++ q =
      p ++ ((strL "common_list_" ++ ds ++ strL ".shtml") ++ q) := by
    simp [List.append_assoc]
  have e1 : (strL "common_list_" ++ ds ++ strL ".shtml") ++ q =
      strL "common_list_" ++ (ds ++ (strL ".shtml" ++ q)) := by
    simp [List.append_assoc]
  have hEmp : ds.isEmpty = false := by
    cases ds with
    | nil => exact absurd rfl hne
    | cons a l => rfl
  have hr : ∀ c cs, strL ".shtml" ++ q = c :: cs → isDigitC c = false := by
    intro c cs h
    have hdot : strL ".shtml" ++ q = '.' :: (strL "shtml" ++ q) := rfl
    rw [hdot] at h
    cases h
    decide
  have h1 : (ds ++ (strL ".shtml" ++ q)).takeWhile isDigitC = ds :=
    takeWhile_app _ _ _ hdig hr
  have h2 : (ds ++ (strL ".shtml" ++ q)).drop ds.length = strL ".shtml" ++ q :=
    List.drop_left _ _
  have h3 : (strL "common_list_" ++ (ds ++ (strL ".shtml" ++ q))).drop 12 =
      ds ++ (strL ".shtml" ++ q) := List.drop_left' rfl
  have h4 : (strL "common_list_" ++ (ds ++ (strL ".shtml" ++ q))).take (12 + ds.length + 6) =
      strL "common_list_" ++ ds ++ strL ".shtml" := by
    rw [← e1, ← hMlen, List.take_left]
  have hfire : mCLN ((strL "common_list_" ++ ds ++ strL ".shtml") ++ q) =
      some (12 + ds.length + 6, (strL "common_list_" ++ ds ++ strL ".shtml", ds)) := by
    rw [e1]
    simp [mCLN, isPrefixOf_append, h1, h2, h3, h4, hEmp]
  have hnilM : mCLN [] = none := rfl
  rw [hu] at hend hum hul ⊢
  have hscan : scanHit mCLN (p ++ ((strL "common_list_" ++ ds ++ strL ".shtml") ++ q)) =
      some (strL "common_list_" ++ ds ++ strL ".shtml", ds) := by
    apply scanHit_first _ _ p.length (12 + ds.length + 6)
    · intro i hi
      apply hum i
      · simp only [List.length_append]
        omega
      · omega
    · rw [List.drop_left]
      exact hfire
  have hfireL : mLit (strL "common_list_" ++ ds ++ strL ".shtml")
      ((p ++ ((strL "common_list_" ++ ds ++ strL ".shtml") ++ q)).drop p.length) =
      some ((strL "common_list_" ++ ds ++ strL ".shtml").length, ()) := by
    rw [List.drop_left]
    simp [mLit, isPrefixOf_append]
  have hothers : ∀ i, i ≠ p.length →
      mLit (strL "common_list_" ++ ds ++ strL ".shtml")
        ((p ++ ((strL "common_list_" ++ ds ++ strL ".shtml") ++ q)).drop i) = none :=
    allNone_of_bounded _ _ p.length (mLit_nil _ hMne) hul
  have hsub := subAll_single (mLit (strL "common_list_" ++ ds ++ strL ".shtml"))
    (strL "common_list_" ++ natDigits (digitsVal ds + 1) ++ strL ".shtml")
    (p ++ ((strL "common_list_" ++ ds ++ strL ".shtml") ++ q)) p.length
    ((strL "common_list_" ++ ds ++ strL ".shtml").length) ()
    (mLit_nil _ hMne) (by rw [hMlen]; omega) hfireL hothers
  have htake : (p ++ ((strL "common_list_" ++ ds ++ strL ".shtml") ++ q)).take p.length = p :=
    List.take_left p _
  have hdropq : (p ++ ((strL "common_list_" ++ ds ++ strL ".shtml") ++ q)).drop
      (p.length + (strL "common_list_" ++ ds ++ strL ".shtml").length) = q := by
    have hgrp : p ++ ((strL "common_list_" ++ ds ++ strL ".shtml") ++ q) =
        (p ++ (strL "common_list_" ++ ds ++ strL ".shtml")) ++ q := by
      simp [List.append_assoc]
    rw [hgrp]
    exact List.drop_left' (by simp [List.length_append])
  rw [genNextL, hend]
  simp only [Bool.false_eq_true, if_false, hscan]
  rw [hsub, htake, hdropq]
  simp [List.append_assoc]

lemma digit_not_sep (c : Char) (h : isDigitC c = true) : isSepC c = false := by
  simp only [isSepC, decide_eq_false_iff_not]
  rintro (rfl | rfl | rfl | rfl | rfl | rfl | rfl) <;> exact absurd h (by decide)

lemma digit_asciiLower (c : Char) (h : isDigitC c = true) : asciiLower c = c := by
  simp only [isDigitC, decide_eq_true_eq] at h
  rw [asciiLower, if_neg]
  omega

lemma digit_ne_a (c : Char) (h : isDigitC c = true) : (asciiLower 'a' == asciiLower c) = false := by
  rw [digit_asciiLower c h, show asciiLower 'a' = 'a' from rfl]
  simp only [isDigitC, decide_eq_true_eq] at h
  rw [beq_eq_false_iff_ne]
  intro heq
  rw [← heq] at h
  exact absurd h (by decide)

lemma sep_ne_a (c : Char) (h : isSepC c = true) : (asciiLower 'a' == asciiLower c) = false := by
  simp only [isSepC, decide_eq_true_eq] at h
  rcases h with rfl | rfl | rfl | rfl | rfl | rfl | rfl <;> decide

/-- Successful match of one case-insensitive `prefix[_\s]*(\d+)` alternative at
the head of `pre ++ seps ++ ds ++ q`, where `pre` lower-cases to the literal,
`seps` is the (maximal) separator run and `ds` the (maximal) digit run. -/
lemma mPrefDigits_fire (pre lit seps ds q : List Char)
    (hlow : lowerL pre = lowerL lit)
    (hsep : ∀ c ∈ seps, isSepC c = true)
    (hne : ds ≠ []) (hdig : ∀ c ∈ ds, isDigitC c = true)
    (hq : ∀ c cs, q = c :: cs → isDigitC c = false) :
    mPrefDigits lit (pre ++ (seps ++ (ds ++ q))) =
      some (lit.length + seps.length + ds.length, (pre ++ seps, ds)) := by
  have hlen : pre.length = lit.length := by
    have h := congrArg List.length hlow
    rw [lowerL_length, lowerL_length] at h
    exact h
  have hci : ciPref lit (pre ++ (seps ++ (ds ++ q))) = true := ciPref_append lit pre _ hlow
  have hrest : (pre ++ (seps ++ (ds ++ q))).drop lit.length = seps ++ (ds ++ q) :=
    List.drop_left' hlen
  have hsw : (seps ++ (ds ++ q)).takeWhile isSepC = seps := by
    apply takeWhile_app _ _ _ hsep
    intro c cs h
    cases ds with
    | nil => exact absurd rfl hne
    | cons d l =>
      have hcons : d :: (l ++ q) = c :: cs := by simpa using h
      have hd : c = d := by cases hcons; rfl
      rw [hd]
      exact digit_not_sep _ (hdig d (by simp))
  have hsdrop : (seps ++ (ds ++ q)).drop seps.length = ds ++ q := List.drop_left _ _
  have hdw : (ds ++ q).takeWhile isDigitC = ds := takeWhile_app _ _ _ hdig hq
  have hEmp : ds.isEmpty = false := by
    cases ds with
    | nil => exact absurd rfl hne
    | cons a l => rfl
  have htake : (pre ++ (seps ++ (ds ++ q))).take (lit.length + seps.length) = pre ++ seps := by
    have hg : pre ++ (seps ++ (ds ++ q)) = (pre ++ seps) ++ (ds ++ q) := by
      simp [List.append_assoc]
    rw [hg]
    apply List.take_left'
    simp [List.length_append, hlen]
  simp [mPrefDigits, hci, hrest, hsw, hsdrop, hdw, hEmp, htake]

/-- The `page` alternative fails at a position where the character after the
leading one is a separator or digit (it cannot be `a`). -/
lemma mPrefDigits_page_fail (b : Char) (rest : List Char)
    (hhead : ∀ c cs, rest = c :: cs → (asciiLower 'a' == asciiLower c) = false) :
    mPrefDigits (strL "page") (b :: rest) = none := by
  have hci : ciPref (strL "page") (b :: rest) = false := by
    rw [show strL "page" = 'p' :: 'a' :: strL "ge" from rfl]
    rw [show ciPref ('p' :: 'a' :: strL "ge") (b :: rest) =
      ((asciiLower 'p' == asciiLower b) && ciPref ('a' :: strL "ge") rest) from rfl]
    cases rest with
    | nil => simp [ciPref]
    | cons c cs =>
      rw [show ciPref ('a' :: strL "ge") (c :: cs) =
        ((asciiLower 'a' == asciiLower c) && ciPref (strL "ge") cs) from rfl]
      rw [hhead c cs rfl]
      simp
  simp [mPrefDigits, hci]

lemma genNext_rule3 (p pre seps ds q : List Char)
    (hpre : lowerL pre = strL "page" ∨ lowerL pre = strL "p")
    (hsep : ∀ c ∈ seps, isSepC c = true)
    (hne : ds ≠ []) (hdig : ∀ c ∈ ds, isDigitC c = true)
    (hq : ∀ c cs, q = c :: cs → isDigitC c = false)
    (hend : (strL "common_list.shtml").isSuffixOf (p ++ pre ++ seps ++ ds ++ q) = false)
    (hcln : scanHit mCLN (p ++ pre ++ seps ++ ds ++ q) = none)
    (hup : ∀ i, i < (p ++ pre ++ seps ++ ds ++ q).length → i ≠ p.length →
      mPageP ((p ++ pre ++ seps ++ ds ++ q).drop i) = none)
    (husub : ∀ i, i < (p ++ pre ++ seps ++ ds ++ q).length → i ≠ p.length →
      mCIPD (pre ++ seps) ((p ++ pre ++ seps ++ ds ++ q).drop i) = none) :
    genNextL (p ++ pre ++ seps ++ ds ++ q) =
      some (p ++ pre ++ seps ++ natDigits (digitsVal ds + 1) ++ q) := by
  have hpreNe : pre ≠ [] := by
    intro h0
    rcases hpre with hl | hl <;> rw [h0] at hl <;> exact absurd (congrArg List.length hl) (by decide)
  have hdw : (ds ++ q).takeWhile isDigitC = ds := takeWhile_app _ _ _ hdig hq
  have hEmp : ds.isEmpty = false := by
    cases ds with
    | nil => exact absurd rfl hne
    | cons a l => rfl
  obtain ⟨L, hfireP⟩ : ∃ L, mPageP (pre ++ (seps ++ (ds ++ q))) = some (L, (pre ++ seps, ds)) := by
    rcases hpre with hl | hl
    · refine ⟨(strL "page").length + seps.length + ds.length, ?_⟩
      have hf := mPrefDigits_fire pre (strL "page") seps ds q (by rw [hl]; rfl) hsep hne hdig hq
      simp [mPageP, hf]
    · obtain ⟨b, hb, hpre1⟩ : ∃ b, asciiLower b = 'p' ∧ pre = [b] := by
        cases pre with
        | nil => exact absurd rfl hpreNe
        | cons b l =>
          rw [show strL "p" = ['p'] from rfl] at hl
          simp only [lowerL, List.map_cons, List.cons.injEq] at hl
          have hlnil : l = [] := by
            have := congrArg List.length hl.2
            simpa using this
          exact ⟨b, hl.1, by rw [hlnil]⟩
      have hpf : mPrefDigits (strL "page") (b :: (seps ++ (ds ++ q))) = none := by
        apply mPrefDigits_page_fail
        intro c cs h
        cases seps with
        | cons s ss =>
          have hcons : s :: (ss ++ (ds ++ q)) = c :: cs := by simpa using h
          have hc : c = s := by cases hcons; rfl
          rw [hc]
          exact sep_ne_a _ (hsep s (by simp))
        | nil =>
          simp only [List.nil_append] at h
          cases ds with
          | nil => exact absurd rfl hne
          | cons d l =>
            have hcons : d :: (l ++ q) = c :: cs := by simpa using h
            have hc : c = d := by cases hcons; rfl
            rw [hc]
            exact digit_ne_a _ (hdig d (by simp))
      have hf := mPrefDigits_fire [b] (strL "p") seps ds q
        (by rw [show strL "p" = ['p'] from rfl]; simp [lowerL, hb]; rfl) hsep hne hdig hq
      refine ⟨(strL "p").length + seps.length + ds.length, ?_⟩
      rw [hpre1]
      have hb1 : [b] ++ (seps ++ (ds ++ q)) = b :: (seps ++ (ds ++ q)) := rfl
      simp only [mPageP, hb1, hpf]
      simpa using hf
  have hu : p ++ pre ++ seps ++ ds ++ q = p ++ (pre ++ (seps ++ (ds ++ q))) := by
    simp [List.append_assoc]
  rw [hu] at hend hcln hup husub ⊢
  have hscan : scanHit mPageP (p ++ (pre ++ (seps ++ (ds ++ q)))) = some (pre ++ seps, ds) := by
    apply scanHit_first _ _ p.length L
    · intro i hi
      apply hup i
      · simp only [List.length_append]
        omega
      · omega
    · rw [List.drop_left]
      exact hfireP
  have hfireS : mCIPD (pre ++ seps) ((p ++ (pre ++ (seps ++ (ds ++ q)))).drop p.length) =
      some ((pre ++ seps).length + ds.length, ()) := by
    rw [List.drop_left]
    have hci : ciPref (pre ++ seps) (pre ++ (seps ++ (ds ++ q))) = true := by
      have h := ciPref_append (pre ++ seps) (pre ++ seps) (ds ++ q) rfl
      rw [List.append_assoc] at h
      exact h
    have hd : (pre ++ (seps ++ (ds ++ q))).drop (pre ++ seps).length = ds ++ q := by
      have h := List.drop_left (pre ++ seps) (ds ++ q)
      rw [List.append_assoc] at h
      exact h
    simp [mCIPD, hci, hd, hdw, hEmp]
  have hnilS : mCIPD (pre ++ seps) [] = none := by
    cases pre with
    | nil => exact absurd rfl hpreNe
    | cons b l => rfl
  have hothers := allNone_of_bounded (mCIPD (pre ++ seps)) _ p.length hnilS husub
  have hlenpos : 1 ≤ (pre ++ seps).length + ds.length := by
    cases pre with
    | nil => exact absurd rfl hpreNe
    | cons b l =>
      simp only [List.length_append, List.length_cons]
      omega
  have hsub := subAll_single (mCIPD (pre ++ seps))
    (pre ++ seps ++ natDigits (digitsVal ds + 1))
    (p ++ (pre ++ (seps ++ (ds ++ q)))) p.length ((pre ++ seps).length + ds.length) ()
    hnilS hlenpos hfireS hothers
  have htake : (p ++ (pre ++ (seps ++ (ds ++ q)))).take p.length = p := List.take_left p _
  have hdropq : (p ++ (pre ++ (seps ++ (ds ++ q)))).drop
      (p.length + ((pre ++ seps).length + ds.length)) = q := by
    have hg2 : p ++ (pre ++ (seps ++ (ds ++ q))) = (p ++ ((pre ++ seps) ++ ds)) ++ q := by
      simp [List.append_assoc]
    rw [hg2]
    apply List.drop_left'
    simp [List.length_append]
    omega
  rw [genNextL, hend]
  simp only [Bool.false_eq_true, if_false, hcln, hscan]
  rw [hsub, htake, hdropq]
  simp [List.append_assoc]

lemma genNext_rule4 (p pre seps ds q : List Char)
    (hpre : lowerL pre = strL "index")
    (hsep : ∀ c ∈ seps, isSepC c = true)
    (hne : ds ≠ []) (hdig : ∀ c ∈ ds, isDigitC c = true)
    (hq : ∀ c cs, q = c :: cs → isDigitC c = false)
    (hend : (strL "common_list.shtml").isSuffixOf (p ++ pre ++ seps ++ ds ++ q) = false)
    (hcln : scanHit mCLN (p ++ pre ++ seps ++ ds ++ q) = none)
    (hpp : scanHit mPageP (p ++ pre ++ seps ++ ds ++ q) = none)
    (hui : ∀ i, i < (p ++ pre ++ seps ++ ds ++ q).length → i ≠ p.length →
      mPrefDigits (strL "index") ((p ++ pre ++ seps ++ ds ++ q).drop i) = none) :
    genNextL (p ++ pre ++ seps ++ ds ++ q) =
      some (p ++ strL "index_" ++ natDigits (digitsVal ds + 1) ++ q) := by
  have hpreNe : pre ≠ [] := by
    intro h0
    rw [h0] at hpre
    exact absurd (congrArg List.length hpre) (by decide)
  have hu : p ++ pre ++ seps ++ ds ++ q = p ++ (pre ++ (seps ++ (ds ++ q))) := by
    simp [List.append_assoc]
  rw [hu] at hend hcln hpp hui ⊢
  have hf := mPrefDigits_fire pre (strL "index") seps ds q (by rw [hpre]; rfl) hsep hne hdig hq
  have hnilI : mPrefDigits (strL "index") [] = none := rfl
  have hscan : scanHit mIndexM (p ++ (pre ++ (seps ++ (ds ++ q)))) = some ds := by
    apply scanHit_first _ _ p.length ((strL "index").length + seps.length + ds.length)
    · intro i hi
      have hn := hui i (by simp only [List.length_append]; omega) (by omega)
      simp [mIndexM, hn]
    · rw [List.drop_left]
      simp [mIndexM, hf]
  have hfireS : mIndexSub ((p ++ (pre ++ (seps ++ (ds ++ q)))).drop p.length) =
      some ((strL "index").length + seps.length + ds.length, ()) := by
    rw [List.drop_left]
    simp [mIndexSub, hf]
  have hnilS : mIndexSub [] = none := rfl
  have husubI : ∀ i, i < (p ++ (pre ++ (seps ++ (ds ++ q)))).length → i ≠ p.length →
      mIndexSub ((p ++ (pre ++ (seps ++ (ds ++ q)))).drop i) = none := by
    intro i hi hik
    have hn := hui i hi hik
    simp [mIndexSub, hn]
  have hothers := allNone_of_bounded mIndexSub _ p.length hnilS husubI
  have hsub := subAll_single mIndexSub
    (strL "index_" ++ natDigits (digitsVal ds + 1))
    (p ++ (pre ++ (seps ++ (ds ++ q)))) p.length
    ((strL "index").length + seps.length + ds.length) ()
    hnilS (by have : (strL "index").length = 5 := rfl; omega) hfireS hothers
  have htake : (p ++ (pre ++ (seps ++ (ds ++ q)))).take p.length = p := List.take_left p _
  have hdropq : (p ++ (pre ++ (seps ++ (ds ++ q)))).drop
      (p.length + ((strL "index").length + seps.length + ds.length)) = q := by
    have hg2 : p ++ (pre ++ (seps ++ (ds ++ q))) = (p ++ (pre ++ seps ++ ds)) ++ q := by
      simp [List.append_assoc]
    rw [hg2]
    apply List.drop_left'
    have hlen : pre.length = 5 := by
      have h := congrArg List.length hpre
      rw [lowerL_length] at h
      exact h
    have h5 : (strL "index").length = 5 := rfl
    simp [List.length_append, hlen, h5]
    omega
  rw [genNextL, hend]
  simp only [Bool.false_eq_true, if_false, hcln, hpp, hscan]
  rw [hsub, htake, hdropq]
  simp [List.append_assoc]

lemma genNext_rule5 (u : List Char)
    (hend : (strL "common_list.shtml").isSuffixOf u = false)
    (h1 : scanHit mCLN u = none) (h2 : scanHit mPageP u = none)
    (h3 : scanHit mIndexM u = none) :
    genNextL u = none := by
  rw [genNextL, hend]
  simp [h1, h2, h3]

/-- Decidable form of the single-occurrence side conditions: convert a boolean
scan over `List.range` into the bounded quantifier the rule lemmas take. -/
lemma ballOfAll {α : Type} (n k : Nat) (m : Matcher α) (s : List Char)
    (h : (List.range n).all (fun i => decide (i = k) || (m (s.drop i)).isNone) = true) :
    ∀ i, i < n → i ≠ k → m (s.drop i) = none := by
  intro i hi hik
  have hx := List.all_eq_true.mp h i (List.mem_range.mpr hi)
  simp only [Bool.or_eq_true, decide_eq_true_eq, Option.isNone_iff_eq_none] at hx
  rcases hx with hx | hx
  · exact absurd hx hik
  · exact hx

/-- C5: `generate_next_url` applies the first matching shape rule: a URL
ending in `common_list.shtml` maps to `common_list_2.shtml`; a URL containing
`common_list_N.shtml` maps to `common_list_{N+1}.shtml`; a URL containing
`page_N` / `p_N` (case-insensitive, optional `[_\s]` separators) maps to the
same URL with `N+1` in place of `N`; a URL containing `index_N` maps to
`index_{N+1}`; a URL matching none of the shapes yields `none`.  Each rewrite
rule is stated for a URL containing a single occurrence of its pattern (the
`∀ i` side conditions say the pattern fires at exactly one position; the
source replaces every occurrence, so with several occurrences all of them
would be rewritten), and each rule carries the side conditions that the
earlier rules do not fire, mirroring the source's first-match priority. -/
theorem claim5_generate_next_url :
    (∀ p : List Char,
      (∀ i, i < (p ++ strL "common_list.shtml").length → i ≠ p.length →
        mLit (strL "common_list.shtml") ((p ++ strL "common_list.shtml").drop i) = none) →
      generate_next_url ⟨p ++ strL "common_list.shtml"⟩ =
        some ⟨p ++ strL "common_list_2.shtml"⟩) ∧
    (∀ p ds q : List Char, ds ≠ [] → (∀ c ∈ ds, isDigitC c = true) →
      (strL "common_list.shtml").isSuffixOf
        (p ++ strL "common_list_" ++ ds ++ strL ".shtml" ++ q) = false →
      (∀ i, i < (p ++ strL "common_list_" ++ ds ++ strL ".shtml" ++ q).length →
        i ≠ p.length →
        mCLN ((p ++ strL "common_list_" ++ ds ++ strL ".shtml" ++ q).drop i) = none) →
      (∀ i, i < (p ++ strL "common_list_" ++ ds ++ strL ".shtml" ++ q).length →
        i ≠ p.length →
        mLit (strL "common_list_" ++ ds ++ strL ".shtml")
          ((p ++ strL "common_list_" ++ ds ++ strL ".shtml" ++ q).drop i) = none) →
      generate_next_url ⟨p ++ strL "common_list_" ++ ds ++ strL ".shtml" ++ q⟩ =
        some ⟨p ++ strL "common_list_" ++ natDigits (digitsVal ds + 1) ++ strL ".shtml" ++ q⟩) ∧
    (∀ p pre seps ds q : List Char,
      (lowerL pre = strL "page" ∨ lowerL pre = strL "p") →
      (∀ c ∈ seps, isSepC c = true) → ds ≠ [] → (∀ c ∈ ds, isDigitC c = true) →
      (∀ c cs, q = c :: cs → isDigitC c = false) →
      (strL "common_list.shtml").isSuffixOf (p ++ pre ++ seps ++ ds ++ q) = false →
      scanHit mCLN (p ++ pre ++ seps ++ ds ++ q) = none →
      (∀ i, i < (p ++ pre ++ seps ++ ds ++ q).length → i ≠ p.length →
        mPageP ((p ++ pre ++ seps ++ ds ++ q).drop i) = none) →
      (∀ i, i < (p ++ pre ++ seps ++ ds ++ q).length → i ≠ p.length →
        mCIPD (pre ++ seps) ((p ++ pre ++ seps ++ ds ++ q).drop i) = none) →
      generate_next_url ⟨p ++ pre ++ seps ++ ds ++ q⟩ =
        some ⟨p ++ pre ++ seps ++ natDigits (digitsVal ds + 1) ++ q⟩) ∧
    (∀ p pre seps ds q : List Char,
      lowerL pre = strL "index" →
      (∀ c ∈ seps, isSepC c = true) → ds ≠ [] → (∀ c ∈ ds, isDigitC c = true) →
      (∀ c cs, q = c :: cs → isDigitC c = false) →
      (strL "common_list.shtml").isSuffixOf (p ++ pre ++ seps ++ ds ++ q) = false →
      scanHit mCLN (p ++ pre ++ seps ++ ds ++ q) = none →
      scanHit mPageP (p ++ pre ++ seps ++ ds ++ q) = none →
      (∀ i, i < (p ++ pre ++ seps ++ ds ++ q).length → i ≠ p.length →
        mPrefDigits (strL "index") ((p ++ pre ++ seps ++ ds ++ q).drop i) = none) →
      generate_next_url ⟨p ++ pre ++ seps ++ ds ++ q⟩ =
        some ⟨p ++ strL "index_" ++ natDigits (digitsVal ds + 1) ++ q⟩) ∧
    (∀ u : String,
      (strL "common_list.shtml").isSuffixOf u.data = false →
      scanHit mCLN u.data = none → scanHit mPageP u.data = none →
      scanHit mIndexM u.data = none →
      generate_next_url u = none) := by
  refine ⟨?_, ?_, ?_, ?_, ?_⟩
  · intro p h
    have hg : genNextL ((⟨p ++ strL "common_list.shtml"⟩ : String).data) =
        some (p ++ strL "common_list_2.shtml") := genNext_rule1 p h
    simp only [generate_next_url, hg]
    rfl
  · intro p ds q h1 h2 h3 h4 h5
    have hg : genNextL ((⟨p ++ strL "common_list_" ++ ds ++ strL ".shtml" ++ q⟩ : String).data) =
        some (p ++ strL "common_list_" ++ natDigits (digitsVal ds + 1) ++ strL ".shtml" ++ q) :=
      genNext_rule2 p ds q h1 h2 h3 h4 h5
    simp only [generate_next_url, hg]
    rfl
  · intro p pre seps ds q h1 h2 h3 h4 h5 h6 h7 h8 h9
    have hg : genNextL ((⟨p ++ pre ++ seps ++ ds ++ q⟩ : String).data) =
        some (p ++ pre ++ seps ++ natDigits (digitsVal ds + 1) ++ q) :=
      genNext_rule3 p pre seps ds q h1 h2 h3 h4 h5 h6 h7 h8 h9
    simp only [generate_next_url, hg]
    rfl
  · intro p pre seps ds q h1 h2 h3 h4 h5 h6 h7 h8 h9
    have hg : genNextL ((⟨p ++ pre ++ seps ++ ds ++ q⟩ : String).data) =
        some (p ++ strL "index_" ++ natDigits (digitsVal ds + 1) ++ q) :=
      genNext_rule4 p pre seps ds q h1 h2 h3 h4 h5 h6 h7 h8 h9
    simp only [generate_next_url, hg]
    rfl
  · intro u h1 h2 h3 h4
    have hg : genNextL u.data = none := genNext_rule5 u.data h1 h2 h3 h4
    simp only [generate_next_url, hg]
    rfl

/-- Witness for C5: the spec's fixture URLs, one per rule. -/
theorem claim5_witness :
    generate_next_url "http://x/common_list.shtml" = some "http://x/common_list_2.shtml" ∧
    generate_next_url "http://x/common_list_7.shtml" = some "http://x/common_list_8.shtml" ∧
    generate_next_url "http://x/page_3/list.shtml" = some "http://x/page_4/list.shtml" ∧
    generate_next_url "http://a/index_2.html" = some "http://a/index_3.html" ∧
    generate_next_url "http://a/zzz.html" = none := by
  refine ⟨?_, ?_, ?_, ?_, ?_⟩
  · exact claim5_generate_next_url.1 (strL "http://x/") (ballOfAll _ _ _ _ (by decide))
  · exact claim5_generate_next_url.2.1 (strL "http://x/") (strL "7") [] (by decide)
      (by decide) (by decide) (ballOfAll _ _ _ _ (by decide)) (ballOfAll _ _ _ _ (by decide))
  · exact claim5_generate_next_url.2.2.1 (strL "http://x/") (strL "page") (strL "_") (strL "3")
      (strL "/list.shtml") (Or.inl (by decide)) (by decide) (by decide) (by decide)
      (by intro c cs h; cases h; decide) (by decide) (by decide)
      (ballOfAll _ _ _ _ (by decide)) (ballOfAll _ _ _ _ (by decide))
  · exact claim5_generate_next_url.2.2.2.1 (strL "http://a/") (strL "index") (strL "_")
      (strL "2") (strL ".html") (by decide) (by decide) (by decide) (by decide)
      (by intro c cs h; cases h; decide) (by decide) (by decide) (by decide)
      (ballOfAll _ _ _ _ (by decide))
  · exact claim5_generate_next_url.2.2.2.2 "http://a/zzz.html" (by decide) (by decide)
      (by decide) (by decide)

/-! ### Link classification -/

lemma extractGo_files_mem (join : String → String → String) (pageUrl : String)
    (anchors : List Anchor) (u n : String) :
    (u, n) ∈ (extractGo join pageUrl anchors).1 ↔
      ∃ a, a ∈ anchors ∧ isFileHref a.href = true ∧ u = join pageUrl a.href ∧
        n = mkName join pageUrl a := by
  induction anchors with
  | nil => simp [extractGo]
  | cons a rest ih =>
    by_cases hf : isFileHref a.href = true
    · simp only [extractGo, hf, if_true, List.mem_cons, Prod.mk.injEq, ih]
      constructor
      · rintro (⟨h1, h2⟩ | ⟨b, hb, h3, h4, h5⟩)
        · exact ⟨a, Or.inl rfl, hf, h1, h2⟩
        · exact ⟨b, Or.inr hb, h3, h4, h5⟩
      · rintro ⟨b, hb | hb, h3, h4, h5⟩
        · subst hb
          exact Or.inl ⟨h4, h5⟩
        · exact Or.inr ⟨b, hb, h3, h4, h5⟩
    · have hfst : (extractGo join pageUrl (a :: rest)).1 = (extractGo join pageUrl rest).1 := by
        by_cases hc : isContentHref a.href = true <;> simp [extractGo, hf, hc]
      rw [hfst, ih]
      constructor
      · rintro ⟨b, hb, h3, h4, h5⟩
        exact ⟨b, List.mem_cons_of_mem a hb, h3, h4, h5⟩
      · rintro ⟨b, hb, h3, h4, h5⟩
        rcases List.mem_cons.mp hb with hb | hb
        · subst hb
          exact absurd h3 hf
        · exact ⟨b, hb, h3, h4, h5⟩

lemma extractGo_contents_mem (join : String → String → String) (pageUrl : String)
    (anchors : List Anchor) (u : String) :
    u ∈ (extractGo join pageUrl anchors).2 ↔
      ∃ a, a ∈ anchors ∧ isFileHref a.href = false ∧ isContentHref a.href = true ∧
        u = join pageUrl a.href := by
  induction anchors with
  | nil => simp [extractGo]
  | cons a rest ih =>
    by_cases hf : isFileHref a.href = true
    · have hsnd : (extractGo join pageUrl (a :: rest)).2 = (extractGo join pageUrl rest).2 := by
        simp [extractGo, hf]
      rw [hsnd, ih]
      constructor
      · rintro ⟨b, hb, h3, h4, h5⟩
        exact ⟨b, List.mem_cons_of_mem a hb, h3, h4, h5⟩
      · rintro ⟨b, hb, h3, h4, h5⟩
        rcases List.mem_cons.mp hb with hb | hb
        · subst hb
          rw [hf] at h3
          cases h3
        · exact ⟨b, hb, h3, h4, h5⟩
    · have hf' : isFileHref a.href = false := by
        cases h : isFileHref a.href
        · rfl
        · exact absurd h hf
      by_cases hc : isContentHref a.href = true
      · simp only [extractGo, hf', Bool.false_eq_true, if_false, hc, if_true, List.mem_cons, ih]
        constructor
        · rintro (h1 | ⟨b, hb, h3, h4, h5⟩)
          · exact ⟨a, Or.inl rfl, hf', hc, h1⟩
          · exact ⟨b, Or.inr hb, h3, h4, h5⟩
        · rintro ⟨b, hb | hb, h3, h4, h5⟩
          · subst hb
            exact Or.inl h5
          · exact Or.inr ⟨b, hb, h3, h4, h5⟩
      · have hc' : isContentHref a.href = false := by
          cases h : isContentHref a.href
          · rfl
          · exact absurd h hc
        have hsnd : (extractGo join pageUrl (a :: rest)).2 = (extractGo join pageUrl rest).2 := by
          simp [extractGo, hf', hc']
        rw [hsnd, ih]
        constructor
        · rintro ⟨b, hb, h3, h4, h5⟩
          exact ⟨b, List.mem_cons_of_mem a hb, h3, h4, h5⟩
        · rintro ⟨b, hb, h3, h4, h5⟩
          rcases List.mem_cons.mp hb with hb | hb
          · subst hb
            rw [hc'] at h4
            cases h4
          · exact ⟨b, hb, h3, h4, h5⟩

/-- C4: `extract_links` partitions the anchors: a pair `(u, n)` is produced as
a file link exactly for the anchors whose href ends case-insensitively in
`.csv`, `.xls` or `.xlsx` (`isFileHref`), with `u` the resolved target and `n`
the sanitized anchor text falling back to the resolved URL's trailing path
segment (`mkName`); a URL is produced as a content link exactly for the
anchors that are not file links and whose href contains `common_detail` or
ends in `.shtml` (`isContentHref`); an anchor passing neither test therefore
contributes to neither output.  The statement quantifies over the external
`urljoin` function. -/
theorem claim4_extract_links_classification (join : String → String → String)
    (pageUrl : String) (anchors : List Anchor) :
    (∀ u n, (u, n) ∈ (extract_links join pageUrl anchors).1 ↔
      ∃ a, a ∈ anchors ∧ isFileHref a.href = true ∧ u = join pageUrl a.href ∧
        n = mkName join pageUrl a) ∧
    (∀ u, u ∈ (extract_links join pageUrl anchors).2 ↔
      ∃ a, a ∈ anchors ∧ isFileHref a.href = false ∧ isContentHref a.href = true ∧
        u = join pageUrl a.href) := by
  constructor
  · intro u n
    rw [show (extract_links join pageUrl anchors).1 = (extractGo join pageUrl anchors).1 from rfl]
    exact extractGo_files_mem join pageUrl anchors u n
  · intro u
    rw [show (extract_links join pageUrl anchors).2 =
      (extractGo join pageUrl anchors).2.dedup from rfl]
    rw [List.mem_dedup]
    exact extractGo_contents_mem join pageUrl anchors u

/-! ### Pagination oracle -/

lemma containsL_iff (s pat : List Char) :
    containsL s pat = true ↔ ∃ l r, s = l ++ pat ++ r := by
  induction s with
  | nil =>
    rw [show containsL [] pat = pat.isPrefixOf ([] : List Char) from rfl]
    constructor
    · intro h
      have hp : pat <+: ([] : List Char) := List.isPrefixOf_iff_prefix.mp h
      have hnil : pat = [] := List.prefix_nil.mp hp
      exact ⟨[], [], by simp [hnil]⟩
    · rintro ⟨l, r, hl⟩
      have hlen : pat.length = 0 := by
        have h0 := congrArg List.length hl
        simp at h0
        omega
      have hnil : pat = [] := List.eq_nil_of_length_eq_zero hlen
      simp [hnil, List.isPrefixOf]
  | cons c cs ih =>
    rw [show containsL (c :: cs) pat = (pat.isPrefixOf (c :: cs) || containsL cs pat) from rfl]
    constructor
    · intro h
      rw [Bool.or_eq_true] at h
      rcases h with h | h
      · obtain ⟨t, ht⟩ := List.isPrefixOf_iff_prefix.mp h
        exact ⟨[], t, by simp [← ht]⟩
      · obtain ⟨l, r, hl⟩ := ih.mp h
        exact ⟨c :: l, r, by simp [hl]⟩
    · rintro ⟨l, r, hl⟩
      rw [Bool.or_eq_true]
      cases l with
      | nil =>
        left
        apply List.isPrefixOf_iff_prefix.mpr
        exact ⟨r, by simpa using hl.symm⟩
      | cons x xs =>
        right
        apply ih.mpr
        refine ⟨xs, r, ?_⟩
        have : c :: cs = x :: (xs ++ pat ++ r) := by simpa using hl
        exact (List.cons.injEq _ _ _ _).mp this |>.2

lemma textMatches_of_split (vocab : List String) (t v : String) (hv : v ∈ vocab)
    (l r : List Char) (h : t.data = l ++ v.data ++ r) : textMatches vocab t = true :=
  List.any_eq_true.mpr ⟨v, hv, (containsL_iff _ _).mpr ⟨l, r, h⟩⟩

lemma detect_button_of_enabled (env : Env) (doc : Doc) (current : String) (a : Anchor)
    (ha : a ∈ doc.anchors) (he : enabledNext a = true) :
    detect_pagination_mode env doc current = some PagMode.button := by
  have hany : doc.anchors.any enabledNext = true := List.any_eq_true.mpr ⟨a, ha, he⟩
  rw [detect_pagination_mode, if_pos hany]

lemma findNextGo_ne_none (join : String → String → String) (current : String)
    (anchors : List Anchor) (a : Anchor) (ha : a ∈ anchors)
    (he : enabledNext a = true) (hh : a.href ≠ "") :
    findNextGo join current anchors ≠ none := by
  induction anchors with
  | nil => cases ha
  | cons b rest ih =>
    rw [findNextGo]
    by_cases hcond : (enabledNext b && b.href != "") = true
    · rw [if_pos hcond]
      exact Option.some_ne_none _
    · rw [if_neg hcond]
      rcases List.mem_cons.mp ha with hab | hab
      · subst hab
        exact absurd (by simp [he, bne_iff_ne, hh]) hcond
      · exact ih hab

lemma lastPageTerminal_iff (env : Env) (current : String) (a : Anchor) :
    lastPageTerminal env current a = true ↔
      (textMatches last_page_texts a.text = true ∧ a.href ≠ "" ∧
        env.urlpath (env.join current a.href) = env.urlpath current) := by
  rw [lastPageTerminal]
  simp only [Bool.and_eq_true, Bool.or_eq_true, beq_iff_eq, bne_iff_ne]
  constructor
  · rintro ⟨⟨h1, h2⟩, h3 | h3⟩
    · exact ⟨h1, h2, by rw [h3]⟩
    · exact ⟨h1, h2, h3⟩
  · rintro ⟨h1, h2, h3⟩
    exact ⟨⟨h1, h2⟩, Or.inr h3⟩

lemma isLast_of_lastAnchor (env : Env) (doc : Doc) (current : String) (a : Anchor)
    (ha : a ∈ doc.anchors) (ht : textMatches last_page_texts a.text = true)
    (hh : a.href ≠ "") (hp : env.urlpath (env.join current a.href) = env.urlpath current) :
    is_last_page env doc current (some PagMode.button) = true := by
  have hl : lastPageTerminal env current a = true :=
    (lastPageTerminal_iff env current a).mpr ⟨ht, hh, hp⟩
  have hany : doc.anchors.any (lastPageTerminal env current) = true :=
    List.any_eq_true.mpr ⟨a, ha, hl⟩
  rw [is_last_page]
  simp [hany]

/-- C6: mode detection gives Button priority: whenever the document holds an
anchor whose text matches the next-page vocabulary and that is not flagged
disabled (by a `disabled` class token or a `disabled` substring in the
onclick attribute), `detect_pagination_mode` returns Button — whatever the
current URL is (in particular when it matches `common_list_N.shtml`), and
whatever the probe oracle answers. -/
theorem claim6_button_priority (env : Env) (doc : Doc) (current : String) (a : Anchor)
    (ha : a ∈ doc.anchors) (hmatch : textMatches next_texts a.text = true)
    (hcd : classDisabled a = false) (hod : onclickDisabled a = false) :
    detect_pagination_mode env doc current = some PagMode.button :=
  detect_button_of_enabled env doc current a ha
    (by simp [enabledNext, hmatch, hcd, hod])

/-- Witness for C6: a page with an enabled `下一页` button detects Button
mode even though the current URL matches the `common_list_N.shtml` shape. -/
theorem claim6_witness :
    detect_pagination_mode fixEnv0 docBtn "http://x/common_list_3.shtml" = some PagMode.button ∧
    has_url_pagination_pattern "http://x/common_list_3.shtml" = true :=
  ⟨claim6_button_priority fixEnv0 docBtn "http://x/common_list_3.shtml"
      ⟨"/p2", "下一页", [], ""⟩ (by decide) (by decide) (by decide) (by decide),
    by decide⟩

/-- C7: `is_last_page` decides terminality per mode.  Button mode: terminal
iff no enabled next-page anchor is present, or some last-page-vocabulary
anchor with a target resolves to a URL whose path (query and fragment
stripped by the external `urlpath`) equals the current page's path.  Url
mode: terminal iff every synthesizable successor fails the existence probe
(vacuously terminal when no successor can be synthesized).  Detected-None
mode: always terminal. -/
theorem claim7_is_last_page_characterization (env : Env) (doc : Doc) (current : String) :
    (is_last_page env doc current (some PagMode.button) = true ↔
      ((¬ ∃ a, a ∈ doc.anchors ∧ enabledNext a = true) ∨
        ∃ a, a ∈ doc.anchors ∧ textMatches last_page_texts a.text = true ∧ a.href ≠ "" ∧
          env.urlpath (env.join current a.href) = env.urlpath current)) ∧
    (is_last_page env doc current (some PagMode.url) = true ↔
      (∀ nxt, generate_next_url current = some nxt → url_exists env nxt = false)) ∧
    is_last_page env doc current none = true := by
  refine ⟨?_, ?_, rfl⟩
  · rw [is_last_page]
    by_cases hl : doc.anchors.any (lastPageTerminal env current) = true
    · rw [if_pos hl]
      simp only [true_iff]
      right
      obtain ⟨a, ha, hla⟩ := List.any_eq_true.mp hl
      obtain ⟨h1, h2, h3⟩ := (lastPageTerminal_iff env current a).mp hla
      exact ⟨a, ha, h1, h2, h3⟩
    · rw [if_neg hl]
      constructor
      · intro h
        left
        rintro ⟨a, ha, he⟩
        have hfalse : doc.anchors.any enabledNext = false := by
          cases hx : doc.anchors.any enabledNext
          · rfl
          · rw [hx] at h
            cases h
        rw [List.any_eq_false] at hfalse
        exact hfalse a ha he
      · intro h
        rcases h with h | h
        · have hfalse : doc.anchors.any enabledNext = false := by
            rw [List.any_eq_false]
            intro a ha hcon
            exact h ⟨a, ha, hcon⟩
          rw [hfalse]
          rfl
        · obtain ⟨a, ha, h1, h2, h3⟩ := h
          exact absurd (List.any_eq_true.mpr
            ⟨a, ha, (lastPageTerminal_iff env current a).mpr ⟨h1, h2, h3⟩⟩) hl
  · rw [is_last_page]
    cases hg : generate_next_url current with
    | none => simp
    | some nxt =>
      simp only [Bool.not_eq_true']
      constructor
      · intro h n' hn'
        cases hn'
        exact h
      · intro h
        exact h nxt rfl

/-- C9: the existence probe is a total boolean function of the two request
oracles (it never raises), returning true exactly when the HEAD request
succeeds with status 200, or the HEAD request raises and the streamed-GET
fallback succeeds with status 200; every non-success status and every raised
request collapses to false. -/
theorem claim9_url_exists_characterization (env : Env) (url : String) :
    url_exists env url = true ↔
      (env.headReq url = some 200 ∨
        (env.headReq url = none ∧ env.getReq url = some 200)) := by
  rw [url_exists]
  cases hh : env.headReq url with
  | some s => simp
  | none =>
    cases hg : env.getReq url with
    | some s => simp
    | none => simp

/-- C10: the next-page and last-page vocabulary tests match by substring
containment, not exact equality: an anchor whose stripped text merely
contains a vocabulary string anywhere (split as `l ++ v ++ r`), and that is
not flagged disabled, makes `detect_pagination_mode` return Button and
`find_next_button` return a target (when the anchor has one); an anchor
whose text merely contains a last-page string and resolves path-equal makes
`is_last_page` report terminal in Button mode. -/
theorem claim10_substring_vocab (env : Env) (doc : Doc) (current : String) :
    (∀ a, a ∈ doc.anchors →
      (∃ v ∈ next_texts, ∃ l r : List Char, a.text.data = l ++ v.data ++ r) →
      classDisabled a = false → onclickDisabled a = false →
      detect_pagination_mode env doc current = some PagMode.button ∧
        (a.href ≠ "" → find_next_button env doc current ≠ none)) ∧
    (∀ a, a ∈ doc.anchors →
      (∃ v ∈ last_page_texts, ∃ l r : List Char, a.text.data = l ++ v.data ++ r) →
      a.href ≠ "" → env.urlpath (env.join current a.href) = env.urlpath current →
      is_last_page env doc current (some PagMode.button) = true) := by
  constructor
  · rintro a ha ⟨v, hv, l, r, hlr⟩ hcd hod
    have hm : textMatches next_texts a.text = true := textMatches_of_split _ _ v hv l r hlr
    have he : enabledNext a = true := by simp [enabledNext, hm, hcd, hod]
    refine ⟨detect_button_of_enabled env doc current a ha he, ?_⟩
    intro hh
    exact findNextGo_ne_none env.join current doc.anchors a ha he hh
  · rintro a ha ⟨v, hv, l, r, hlr⟩ hh hp
    exact isLast_of_lastAnchor env doc current a ha
      (textMatches_of_split _ _ v hv l r hlr) hh hp

/-- Witness for C10: `next` inside `see more next items` is recognized as a
next-page control; `last` inside `go to last page`, resolving path-equal,
makes the page terminal. -/
theorem claim10_witness :
    (detect_pagination_mode fixEnv0 docSub "http://x/list.shtml" = some PagMode.button ∧
      find_next_button fixEnv0 docSub "http://x/list.shtml" ≠ none) ∧
    is_last_page fixEnv0 docSub "http://x/list.shtml" (some PagMode.button) = true := by
  have h := claim10_substring_vocab fixEnv0 docSub "http://x/list.shtml"
  have h1 := h.1 ⟨"/more", "see more next items", [], ""⟩ (by decide)
    ⟨"next", by decide, (strL "see more "), (strL " items"), by decide⟩ (by decide) (by decide)
  have h2 := h.2 ⟨"/self", "go to last page", [], ""⟩ (by decide)
    ⟨"last", by decide, (strL "go to "), (strL " page"), by decide⟩ (by decide) (by decide)
  exact ⟨⟨h1.1, h1.2 (by decide)⟩, h2⟩

/-! ### Download store and crawl loop -/

lemma download_requests (env : Env) (st : St) (url name : String) :
    ∃ t, (download env st url name).2.requests = st.requests ++ t := by
  by_cases h : (st.downloaded.contains url && valid_names name) = true
  · rw [download, if_pos h]
    exact ⟨[], by simp⟩
  · refine ⟨[url], ?_⟩
    rw [download, if_neg h]
    cases hfu : env.files url with
    | none => rfl
    | some r =>
      dsimp only
      by_cases hs : 400 ≤ r.status
      · rw [if_pos hs]
      · rw [if_neg hs]
        cases r.streamErr
        · rfl
        · rfl

lemma processFiles_requests (env : Env) (fs : List (String × String)) (st : St) :
    ∃ t, (processFiles env st fs).2.requests = st.requests ++ t := by
  induction fs generalizing st with
  | nil => exact ⟨[], by simp [processFiles]⟩
  | cons f rest ih =>
    obtain ⟨u, n⟩ := f
    rw [processFiles]
    obtain ⟨t1, ht1⟩ := download_requests env st u n
    cases hd : download env st u n with
    | mk res st1 =>
      rw [hd] at ht1
      cases res with
      | ok x =>
        obtain ⟨t2, ht2⟩ := ih st1
        exact ⟨t1 ++ t2, by rw [ht2, ht1, List.append_assoc]⟩
      | error e => exact ⟨t1, ht1⟩

lemma fetchDoc_requests (env : Env) (st : St) (url : String) :
    (fetchDoc env st url).2.requests = st.requests ++ [url] := by
  rw [fetchDoc]
  cases env.pages url
  · rfl
  · rfl

lemma processContents_requests (env : Env) (cs : List String) (st : St) :
    ∃ t, (processContents env st cs).requests = st.requests ++ t := by
  induction cs generalizing st with
  | nil => exact ⟨[], by simp [processContents]⟩
  | cons c rest ih =>
    rw [processContents]
    have hfr := fetchDoc_requests env st c
    cases hf : fetchDoc env st c with
    | mk fres s1 =>
      rw [hf] at hfr
      cases fres with
      | error e =>
        obtain ⟨t2, ht2⟩ := ih s1
        exact ⟨[c] ++ t2, by rw [ht2, hfr, List.append_assoc]⟩
      | ok d =>
        obtain ⟨t1, ht1⟩ :=
          processFiles_requests env (extract_links env.join c d.anchors).1 s1
        obtain ⟨t2, ht2⟩ :=
          ih (processFiles env s1 (extract_links env.join c d.anchors).1).2
        refine ⟨[c] ++ t1 ++ t2, ?_⟩
        rw [ht2, ht1, hfr]
        simp [List.append_assoc]

/-- C1 (amended part): the per-content-page handler isolates failures — every
content link in the list is fetched (appears in the request log), no matter
how earlier content pages or their downloads fail. -/
theorem claim1_amended_content_isolation (env : Env) (st : St) (cs : List String)
    (c : String) (hc : c ∈ cs) : c ∈ (processContents env st cs).requests := by
  induction cs generalizing st with
  | nil => cases hc
  | cons c0 rest ih =>
    rw [processContents]
    have key : ∀ st1 : St, c ∈ st1.requests → c ∈ (processContents env st1 rest).requests := by
      intro st1 h1
      obtain ⟨t, ht⟩ := processContents_requests env rest st1
      rw [ht]
      exact List.mem_append_left t h1
    rcases List.mem_cons.mp hc with hceq | hcr
    · subst hceq
      have hfr := fetchDoc_requests env st c
      cases hf : fetchDoc env st c with
      | mk fres s1 =>
        rw [hf] at hfr
        have hcs1 : c ∈ s1.requests := by
          rw [hfr]
          exact List.mem_append_right _ (by simp)
        cases fres with
        | error e => exact key s1 hcs1
        | ok d =>
          apply key
          obtain ⟨t1, ht1⟩ :=
            processFiles_requests env (extract_links env.join c d.anchors).1 s1
          rw [ht1]
          exact List.mem_append_left t1 hcs1
    · cases hf : fetchDoc env st c0 with
      | mk fres s1 =>
        cases fres with
        | error e => exact ih s1 hcr
        | ok d => exact ih _ hcr

/-- Counterexample to C1 as stated: in a run over a listing page with two
file links where the first transfer raises a transport error, the error is
not caught per link — the second file link is never requested and the run
performs no download at all (the request log holds only the page fetch and
the first, failed, transfer). -/
theorem claim1_counterexample :
    "http://b/f1.csv" ∈ (run envC1 "http://b/list.html" none 5 st0).requests ∧
    "http://b/f2.csv" ∉ (run envC1 "http://b/list.html" none 5 st0).requests ∧
    (run envC1 "http://b/list.html" none 5 st0).downloadedLog = [] := by
  have h : (run envC1 "http://b/list.html" none 5 st0).requests =
      ["http://b/list.html", "http://b/f1.csv"] := rfl
  refine ⟨?_, ?_, rfl⟩
  · rw [h]
    decide
  · rw [h]
    decide

/-- Witness for the amended C1: with two content links whose fetches both
fail, the second content page is still attempted. -/
theorem claim1_witness :
    "http://b/c2.shtml" ∈
      (processContents envC1 st0 ["http://b/c1.shtml", "http://b/c2.shtml"]).requests :=
  claim1_amended_content_isolation envC1 st0 _ _ (by decide)

/-- Counterexample to C2 as stated: a first complete run records the file URL
in the DownloadedSet, yet the second run re-fetches and re-downloads it,
because the suggested name `d.CSV` fails the case-sensitive `endswith`
check of `valid_names`.  The durable record receives a second append and the
request log shows the file fetched twice. -/
theorem claim2_counterexample :
    (run envC2 "http://a/list.html" none 5 st0).downloaded = ["http://a/d.CSV"] ∧
    (run envC2 "http://a/list.html" none 5
        (run envC2 "http://a/list.html" none 5 st0)).downloadedLog =
      ["http://a/d.CSV", "http://a/d.CSV"] ∧
    (run envC2 "http://a/list.html" none 5
        (run envC2 "http://a/list.html" none 5 st0)).requests =
      ["http://a/list.html", "http://a/d.CSV", "http://a/list.html", "http://a/d.CSV"] :=
  ⟨rfl, rfl, rfl⟩

/-- C2 (amended): a URL present in the DownloadedSet is never re-fetched
provided its suggested name passes the `valid_names` suffix check —
`download` then returns success with the state (request log included)
completely unchanged. -/
theorem claim2_amended_no_refetch (env : Env) (st : St) (url name : String)
    (hd : st.downloaded.contains url = true) (hv : valid_names name = true) :
    download env st url name = (Except.ok (), st) := by
  rw [download, if_pos (by rw [hd, hv]; rfl)]

/-- Witness for the amended C2. -/
theorem claim2_witness : download fixEnv0 stC3 "u" "d.csv" = (Except.ok (), stC3) :=
  claim2_amended_no_refetch fixEnv0 stC3 "u" "d.csv" (by decide) (by decide)

/-- Counterexample to C3 as stated: with the URL recorded and the name
`datacsv` — whose extension is none of `.csv`, `.xls`, `.xlsx` — the claim
requires the transfer to be performed, but `download` is a no-op (success,
state unchanged, no request issued), because the source checks the suffixes
`csv`/`xls`/`xlsx` without a leading dot. -/
theorem claim3_counterexample :
    download fixEnv0 stC3 "u" "datacsv" = (Except.ok (), stC3) ∧
    strEnds "datacsv" ".csv" = false ∧ strEnds "datacsv" ".xls" = false ∧
    strEnds "datacsv" ".xlsx" = false ∧ stC3.requests = [] :=
  ⟨rfl, rfl, rfl, rfl, rfl⟩

/-- C3 (amended): `download url name` is a no-op (success without transfer,
state unchanged) exactly when `url` is recorded in the DownloadedSet and
`name` ends with one of the plain suffixes `csv`, `xls`, `xlsx` (dot not
required, case-sensitive); otherwise a transfer is attempted — the request
log always grows by `url`. -/
theorem claim3_amended_noop_iff (env : Env) (st : St) (url name : String) :
    ((st.downloaded.contains url && valid_names name) = true →
      download env st url name = (Except.ok (), st)) ∧
    ((st.downloaded.contains url && valid_names name) = false →
      (download env st url name).2.requests = st.requests ++ [url]) := by
  constructor
  · intro h
    rw [download, if_pos h]
  · intro h
    rw [download, if_neg (by rw [h]; exact Bool.false_ne_true)]
    cases hfu : env.files url with
    | none => rfl
    | some r =>
      dsimp only
      by_cases hs : 400 ≤ r.status
      · rw [if_pos hs]
      · rw [if_neg hs]
        cases r.streamErr
        · rfl
        · rfl

/-- Witness for the amended C3: the recorded URL with an unrecognized-name
suffix is re-requested. -/
theorem claim3_witness :
    (download fixEnv0 stC3 "u" "report.pdf").2.requests = stC3.requests ++ ["u"] :=
  (claim3_amended_noop_iff fixEnv0 stC3 "u" "report.pdf").2 (by decide)

lemma fileContent_setFile (fs : List (String × List Nat)) (name : String)
    (content : List Nat) :
    fileContent (setFile fs name content) name = some content := by
  simp [fileContent, setFile]

/-- C8: the durable DownloadedSet record is appended only after the full
stream is written.  (a) Any raised download leaves `downloaded` and the
durable record unchanged.  (b) A mid-stream failure raises, leaving a partial
file on disk (the chunks produced before the raise) and no record.  (c) A
successful transfer first writes the full content, then appends the record.
(d) A URL absent from the DownloadedSet is always requested again — a rerun
retries the failed URL from the top. -/
theorem claim8_durable_record_after_stream (env : Env) (st : St) (url name : String) :
    (∀ e, (download env st url name).1 = Except.error e →
      (download env st url name).2.downloaded = st.downloaded ∧
      (download env st url name).2.downloadedLog = st.downloadedLog) ∧
    (∀ r, env.files url = some r → r.status < 400 → r.streamErr = true →
      (st.downloaded.contains url && valid_names name) = false →
      (download env st url name).1 = Except.error DlErr.stream ∧
      fileContent (download env st url name).2.fs name = some r.chunks.flatten) ∧
    (∀ r, env.files url = some r → r.status < 400 → r.streamErr = false →
      (st.downloaded.contains url && valid_names name) = false →
      (download env st url name).1 = Except.ok () ∧
      (download env st url name).2.downloadedLog = st.downloadedLog ++ [url] ∧
      fileContent (download env st url name).2.fs name = some r.chunks.flatten) ∧
    (st.downloaded.contains url = false →
      (download env st url name).2.requests = st.requests ++ [url]) := by
  by_cases h : (st.downloaded.contains url && valid_names name) = true
  · have hdl : download env st url name = (Except.ok (), st) := by
      rw [download, if_pos h]
    refine ⟨?_, ?_, ?_, ?_⟩
    · intro e he
      rw [hdl] at he
      cases he
    · intro r _ _ _ hff
      rw [h] at hff
      cases hff
    · intro r _ _ _ hff
      rw [h] at hff
      cases hff
    · intro hdf
      rw [Bool.and_eq_true] at h
      rw [hdf] at h
      cases h.1
  · cases hfu : env.files url with
    | none =>
      have hdl : download env st url name =
          (Except.error DlErr.transport, { st with requests := st.requests ++ [url] }) := by
        rw [download, if_neg h, hfu]
      refine ⟨?_, ?_, ?_, ?_⟩
      · intro e _
        rw [hdl]
        exact ⟨rfl, rfl⟩
      · intro r hr
        cases hr
      · intro r hr
        cases hr
      · intro _
        rw [hdl]
    | some r0 =>
      by_cases hs : 400 ≤ r0.status
      · have hdl : download env st url name =
            (Except.error (DlErr.http r0.status),
              { st with requests := st.requests ++ [url] }) := by
          rw [download, if_neg h, hfu]
          dsimp only
          rw [if_pos hs]
        refine ⟨?_, ?_, ?_, ?_⟩
        · intro e _
          rw [hdl]
          exact ⟨rfl, rfl⟩
        · intro r hr hst _ _
          cases hr
          omega
        · intro r hr hst _ _
          cases hr
          omega
        · intro _
          rw [hdl]
      · cases hse : r0.streamErr
        · have hdl : download env st url name =
              (Except.ok (),
                { st with
                  requests := st.requests ++ [url]
                  fs := setFile st.fs name r0.chunks.flatten
                  downloaded := st.downloaded ++ [url]
                  downloadedLog := st.downloadedLog ++ [url] }) := by
            rw [download, if_neg h, hfu]
            dsimp only
            rw [if_neg hs, hse]
            rfl
          refine ⟨?_, ?_, ?_, ?_⟩
          · intro e he
            rw [hdl] at he
            cases he
          · intro r hr _ hser _
            cases hr
            rw [hse] at hser
            cases hser
          · intro r hr _ _ _
            cases hr
            rw [hdl]
            exact ⟨rfl, rfl, fileContent_setFile _ _ _⟩
          · intro _
            rw [hdl]
        · have hdl : download env st url name =
              (Except.error DlErr.stream,
                { st with
                  requests := st.requests ++ [url]
                  fs := setFile st.fs name r0.chunks.flatten }) := by
            rw [download, if_neg h, hfu]
            dsimp only
            rw [if_neg hs, hse]
            rfl
          refine ⟨?_, ?_, ?_, ?_⟩
          · intro e _
            rw [hdl]
            exact ⟨rfl, rfl⟩
          · intro r hr _ _ _
            cases hr
            rw [hdl]
            exact ⟨rfl, fileContent_setFile _ _ _⟩
          · intro r hr _ hser _
            cases hr
            rw [hse] at hser
            cases hser
          · intro _
            rw [hdl]

/-- Witness for C8: the transfer of `u8` fails after two chunks; the partial
file is on disk, nothing is recorded, and the state shows the attempt. -/
theorem claim8_witness :
    (download envC8 st0 "u8" "f.csv").1 = Except.error DlErr.stream ∧
    fileContent (download envC8 st0 "u8" "f.csv").2.fs "f.csv" = some [1, 2] ∧
    (download envC8 st0 "u8" "f.csv").2.downloaded = [] ∧
    (download envC8 st0 "u8" "f.csv").2.downloadedLog = [] := by
  have h := claim8_durable_record_after_stream envC8 st0 "u8" "f.csv"
  have h2 := h.2.1 ⟨200, [[1], [2]], true⟩ rfl (by decide) rfl (by decide)
  have h1 := h.1 DlErr.stream h2.1
  exact ⟨h2.1, h2.2, h1.1, h1.2⟩

end CSRC
